import Mathlib

set_option maxHeartbeats 1000000

/-!
Verification of the batched text-classification inference script
(examples/text_classification/pretrained_models/deploy/python/predict.py).

The script is a linear pipeline: tokenize each input text into id
sequences, group the encoded examples into fixed-size batches, pad each
batch to a common length, run an opaque inference engine on each batch,
turn the raw per-class scores into probabilities by exponential
normalization, take the first index of maximal probability per row, map
indices to label strings, and print one line per input.

External collaborators (tokenizer, inference engine) are opaque
capabilities, embedded as function-valued parameters. Machine floats are
idealized as real numbers. Python failures are embedded with `Except`.
-/

/-- Python-level failure modes that the script can reach: a dictionary
lookup with a missing key (KeyError), a read of a local variable before
its first assignment (UnboundLocalError), and the argument-parser
rejection path (argparse reports the bad flag and raises SystemExit). -/
inductive PyErr where
  | keyError : PyErr
  | unboundLocal : PyErr
  | systemExit : PyErr
  deriving DecidableEq

/-- Opaque external tokenizer (spec section 9): `encode text max_len`
yields the pair (input_ids, token_type_ids) that the call
`tokenizer(text=text, max_seq_len=max_seq_length)` produces, and
`pad_token_id` is the designated pad id used by the padding step. -/
structure Tokenizer where
  encode : String → ℕ → List ℤ × List ℤ
  pad_token_id : ℤ

/-- Result shape of `convert_example` (predict.py lines 87-89): a 2-tuple
(input_ids, segment_ids) on the `is_test` branch, or a 3-tuple carrying a
label on the labeled branch. -/
inductive ConvOut where
  | pair (input_ids segment_ids : List ℤ) : ConvOut
  | labeled (input_ids segment_ids : List ℤ) (label : ℤ) : ConvOut

/-- The label map built by `convert_example` (predict.py lines 81-83):
`for (i, l) in enumerate(label_list): label_map[l] = i`. -/
def buildLabelMap (label_list : List String) : List (String × ℕ) :=
  label_list.enum.map (fun p => (p.2, p.1))

/-- Embedding of `convert_example` (predict.py lines 37-89). The example
is a bare text string (line 74: `text = example`). On the labeled branch
(`not is_test`, lines 79-87) the code builds `label_map` and then runs
`label = label_map[label]`; the local variable `label` is read on the
right-hand side before it has ever been assigned, so Python raises
UnboundLocalError there, before any dictionary lookup happens. -/
def convert_example (input_example : String) (tok : Tokenizer) (label_list : List String)
    (max_seq_length : ℕ) (is_test : Bool) : Except PyErr ConvOut :=
  let text := input_example
  let encoded_inputs := tok.encode text max_seq_length
  let input_ids := encoded_inputs.1
  let segment_ids := encoded_inputs.2
  if is_test = false then
    let _label_map := buildLabelMap label_list
    Except.error PyErr.unboundLocal
  else
    Except.ok (ConvOut.pair input_ids segment_ids)

/-- The encoding step of `Predictor.predict` (predict.py lines 135-142):
`input_ids, segment_ids = convert_example(text, ..., is_test=True)`.
The second match arm is unreachable because `is_test` is `true`
(proved below as the C7 theorem). -/
def encodeForPredict (tok : Tokenizer) (max_seq_length : ℕ) (label_list : List String)
    (text : String) : List ℤ × List ℤ :=
  match convert_example text tok label_list max_seq_length true with
  | Except.ok (ConvOut.pair input_ids segment_ids) => (input_ids, segment_ids)
  | _ => ([], [])

/-- `label_map.values()` (predict.py line 139): the values of the caller
supplied label dictionary, in insertion order. -/
def lmValues (label_map : List (ℕ × String)) : List String :=
  label_map.map Prod.snd

/-- Python dictionary indexing `label_map[i]` (predict.py line 165):
the value stored under key `i`, raising KeyError when absent. -/
def lmGet (label_map : List (ℕ × String)) (i : ℕ) : Except PyErr String :=
  match label_map with
  | [] => Except.error PyErr.keyError
  | (k, v) :: rest => if i = k then Except.ok v else lmGet rest i

/-- `range(0, stop, step)` for a positive step (predict.py line 152):
the start offsets 0, step, 2*step, ... below `stop`. -/
def pyRange (stop step : ℕ) : List ℕ :=
  (List.range ((stop + step - 1) / step)).map (fun i => i * step)

/-- The batching step (predict.py lines 150-153):
`[examples[idx:idx + batch_size] for idx in range(0, len(examples), batch_size)]`.
A Python slice `examples[idx:idx+k]` is `(examples.drop idx).take k`. -/
def getBatches {α : Type} (examples : List α) (batch_size : ℕ) : List (List α) :=
  (pyRange examples.length batch_size).map
    (fun idx => (examples.drop idx).take batch_size)

/-- The maximum raw sequence length within one batch. -/
def batchMaxLen (seqs : List (List ℤ)) : ℕ :=
  (seqs.map List.length).foldr max 0

/-- Modelled from the spec: `paddlenlp.data.Pad(axis=0, pad_val=v)`, whose
source is not part of this tree. Spec section 4.4: within each chunk, pad
each sequence to the maximum length of that chunk using the designated pad
id, appending pad ids on the right and leaving original tokens unchanged. -/
def padBatch (pad_val : ℤ) (seqs : List (List ℤ)) : List (List ℤ) :=
  seqs.map (fun s => s ++ List.replicate (batchMaxLen seqs - s.length) pad_val)

/-- Modelled from the spec: `paddlenlp.data.Tuple(Pad, Pad)`, whose source
is not part of this tree (predict.py lines 144-147). It applies the first
`Pad` to the first components of the samples and the second `Pad` to the
second components, yielding the (input_ids, segment_ids) tensors. -/
def batchify_fn (pad_val : ℤ) (samples : List (List ℤ × List ℤ)) :
    List (List ℤ) × List (List ℤ) :=
  (padBatch pad_val (samples.map Prod.fst), padBatch pad_val (samples.map Prod.snd))

/-- Modelled from the spec: `scipy.special.softmax(row)` (an external
dependency), idealized over the reals by the exponential-normalization
formula of spec section 4.5: each entry x becomes exp x divided by the sum
of the exponentials of the row. `softmax(logits, axis=1)` applies this to
every row. -/
noncomputable def softmaxRow (row : List ℝ) : List ℝ :=
  row.map (fun x => Real.exp x / (row.map Real.exp).sum)

/-- Scanning loop of `np.argmax`: `best` is the running maximum, found
first at position `best_idx`; `cur` is the position of the head of the
remaining list. The running maximum is replaced only on strict increase,
so the first position of the maximum wins. -/
def argmaxAux {α : Type} [LinearOrder α] (best : α) (best_idx cur : ℕ) :
    List α → ℕ
  | [] => best_idx
  | x :: xs =>
    if best < x then argmaxAux x cur (cur + 1) xs
    else argmaxAux best best_idx (cur + 1) xs

/-- `np.argmax` on one row (predict.py line 163): the first index at which
the row attains its maximum value; 0 by convention on the empty row. -/
def npArgmax {α : Type} [LinearOrder α] : List α → ℕ
  | [] => 0
  | x :: xs => argmaxAux x 0 1 xs

/-- The label decoding comprehension `[label_map[i] for i in idx]`
(predict.py line 165): looks every index up in the label dictionary,
raising KeyError at the first missing key. -/
def mapLabels (label_map : List (ℕ × String)) : List ℕ → Except PyErr (List String)
  | [] => Except.ok []
  | i :: rest =>
    match lmGet label_map i with
    | Except.error e => Except.error e
    | Except.ok l =>
      match mapLabels label_map rest with
      | Except.error e => Except.error e
      | Except.ok ls => Except.ok (l :: ls)

/-- The predictor object (predict.py lines 92-116). The loaded inference
session together with its bound input and output tensor handles is opaque;
it is abstracted as `engine`, the function from the two input tensors
(input_ids and segment_ids, one row per example of the batch) to the
logits tensor read back by `copy_to_cpu` (one row of class scores per
example). `max_seq_length` is stored at construction (line 94). -/
structure Predictor where
  max_seq_length : ℕ
  engine : List (List ℤ) → List (List ℤ) → List (List ℝ)

/-- Body of one iteration of the prediction loop (predict.py lines
156-165): pad the batch into the two tensors, run the engine, soften the
logits row-wise, take the row-wise argmax and decode through the label
dictionary. -/
noncomputable def decodeBatch (p : Predictor) (pad_val : ℤ)
    (label_map : List (ℕ × String)) (batch : List (List ℤ × List ℤ)) :
    Except PyErr (List String) :=
  let t := batchify_fn pad_val batch
  let logits := p.engine t.1 t.2
  let probs := logits.map softmaxRow
  let idx := probs.map npArgmax
  mapLabels label_map idx

/-- The prediction loop (predict.py lines 155-166): iterate over the
batches in order, decode each batch, and `results.extend(labels)`. -/
noncomputable def processBatches (p : Predictor) (pad_val : ℤ)
    (label_map : List (ℕ × String)) :
    List (List (List ℤ × List ℤ)) → List String → Except PyErr (List String)
  | [], results => Except.ok results
  | batch :: rest, results =>
    match decodeBatch p pad_val label_map batch with
    | Except.error e => Except.error e
    | Except.ok labels => processBatches p pad_val label_map rest (results ++ labels)

/-- Embedding of `Predictor.predict` (predict.py lines 118-167): encode
every text with `is_test=True`, slice the encoded examples into batches of
`batch_size`, then run the prediction loop starting from `results = []`. -/
noncomputable def Predictor.predict (p : Predictor) (data : List String)
    (tok : Tokenizer) (label_map : List (ℕ × String)) (batch_size : ℕ) :
    Except PyErr (List String) :=
  let examples := data.map (fun text =>
    encodeForPredict tok p.max_seq_length (lmValues label_map) text)
  let batches := getBatches examples batch_size
  processBatches p tok.pad_token_id label_map batches []

/-- The label the pipeline assigns to input number `i`: input `i` sits in
batch number `i / batch_size` at offset `i % batch_size`; that batch is
padded, fed to the engine, and row `i % batch_size` of the logits is
decoded by softmax, argmax and the label dictionary. -/
noncomputable def expectedLabelAt (p : Predictor) (tok : Tokenizer)
    (label_map : List (ℕ × String)) (data : List String) (batch_size i : ℕ) :
    Except PyErr String :=
  let examples := data.map (fun text =>
    encodeForPredict tok p.max_seq_length (lmValues label_map) text)
  let batch := (examples.drop (i / batch_size * batch_size)).take batch_size
  let t := batchify_fn tok.pad_token_id batch
  let row := (p.engine t.1 t.2).getD (i % batch_size) []
  lmGet label_map (npArgmax (softmaxRow row))

/-- The sequence of (input_ids, segment_ids) tensor pairs that the predict
loop copies into the engine, one pair per `run()` invocation (predict.py
lines 156-161): exactly one per batch, in batch order. -/
def Predictor.engineCalls (p : Predictor) (data : List String) (tok : Tokenizer)
    (label_map : List (ℕ × String)) (batch_size : ℕ) :
    List (List (List ℤ) × List (List ℤ)) :=
  (getBatches (data.map (fun text =>
    encodeForPredict tok p.max_seq_length (lmValues label_map) text)) batch_size).map
    (fun batch => batchify_fn tok.pad_token_id batch)

/-- The output loop of the script (predict.py lines 188-189):
`for idx, text in enumerate(data): print('Data: {} \t Label: {}'.format(text, results[idx]))`. -/
def consoleLines (data results : List String) : List String :=
  (List.range data.length).map (fun idx =>
    "Data: " ++ data.getD idx "" ++ " \t Label: " ++ results.getD idx "")

/-- The fixed choice set of the `--device` flag (predict.py line 32). -/
def deviceChoices : List String := ["cpu", "gpu", "xpu"]

/-- The argument-parser handling of `--device` (predict.py line 32):
flag absent means the default value gpu; a supplied value is accepted
only when it belongs to the choice enumeration, and any other value makes
argparse print a usage message and exit before the script body runs. -/
def parseDevice (arg : Option String) : Except PyErr String :=
  match arg with
  | none => Except.ok "gpu"
  | some s => if s ∈ deviceChoices then Except.ok s else Except.error PyErr.systemExit

/-- The `__main__` block (predict.py lines 170-189), parameterized over the
predictor construction (`mk device`, modelling lines 172-173), the
tokenizer, the data list and the label dictionary: arguments are parsed
first (line 33, module level), so a rejected `--device` value exits before
any predictor is constructed; otherwise the predictor runs and the result
lines are printed one per input. -/
noncomputable def scriptMain (mk : String → Predictor) (tok : Tokenizer)
    (data : List String) (label_map : List (ℕ × String)) (batch_size : ℕ)
    (deviceArg : Option String) : Except PyErr (List String) :=
  match parseDevice deviceArg with
  | Except.error e => Except.error e
  | Except.ok device =>
    match (mk device).predict data tok label_map batch_size with
    | Except.error e => Except.error e
    | Except.ok results => Except.ok (consoleLines data results)

/-- A concrete stand-in tokenizer used to evaluate the pipeline on closed
inputs: every text encodes to ids [1, 2] with type ids [0, 0]; pad id 0. -/
def demoTok : Tokenizer :=
  ⟨fun _ _ => ([1, 2], [0, 0]), 0⟩

/-- A concrete stand-in predictor: a single-class engine that returns one
logit row [0] per example row of the batch. -/
noncomputable def demoPredictor : Predictor :=
  ⟨128, fun a _ => a.map (fun _ => [(0 : ℝ)])⟩

/-- A concrete label dictionary for closed evaluations. -/
def demoLM : List (ℕ × String) := [(0, "positive")]

/-- The padding contract for one field of a batch: the padded batch keeps
one row per raw row, every padded row has the maximal raw length of the
field, that maximum is one of the raw lengths and bounds all of them, raw
prefixes are preserved position by position, and every filled position
holds the pad id. -/
def PaddedCorrectly (pad_val : ℤ) (seqs padded : List (List ℤ)) : Prop :=
  padded.length = seqs.length ∧
  (∀ t ∈ padded, t.length = batchMaxLen seqs) ∧
  batchMaxLen seqs ∈ seqs.map List.length ∧
  (∀ s ∈ seqs, s.length ≤ batchMaxLen seqs) ∧
  (∀ j, ∀ hj : j < seqs.length, ∀ i : ℕ,
    (i < seqs[j].length →
      (padded.getD j []).getD i pad_val = seqs[j].getD i pad_val) ∧
    (seqs[j].length ≤ i → i < batchMaxLen seqs →
      (padded.getD j []).getD i 0 = pad_val))

/-- Indexing with a default into the left part of an appended list. -/
theorem getD_append_lt {α : Type} (l1 l2 : List α) (d : α) :
    ∀ n, n < l1.length → (l1 ++ l2).getD n d = l1.getD n d := by
  induction l1 with
  | nil => intro n h; simp at h
  | cons a t ih =>
    intro n h
    cases n with
    | zero => simp
    | succ m =>
      simp only [List.cons_append, List.getD_cons_succ]
      exact ih m (by simp at h; omega)

/-- Indexing with a default into the right part of an appended list. -/
theorem getD_append_ge {α : Type} (l1 l2 : List α) (d : α) :
    ∀ n, l1.length ≤ n → (l1 ++ l2).getD n d = l2.getD (n - l1.length) d := by
  induction l1 with
  | nil => intro n h; simp
  | cons a t ih =>
    intro n h
    cases n with
    | zero => simp at h
    | succ m =>
      simp only [List.cons_append, List.getD_cons_succ, List.length_cons]
      rw [ih m (by simp at h; omega)]
      congr 1
      omega

/-- Indexing with a default into a mapped list, inside the bounds. -/
theorem getD_map_of_lt {α β : Type} (f : α → β) (l : List α) (d : β) (n : ℕ)
    (h : n < l.length) : (l.map f).getD n d = f (l.get ⟨n, h⟩) := by
  rw [List.getD_eq_getElem _ _ (by simpa using h), List.getElem_map]
  simp

/-- A length n list needs (n + k - 1) / k chunks of size k to be covered. -/
theorem ceil_div_mul_ge (n k : ℕ) (hk : 0 < k) : n ≤ (n + k - 1) / k * k := by
  have h1 : (n + k - 1) / k * k + (n + k - 1) % k = n + k - 1 := Nat.div_add_mod' _ _
  have h2 : (n + k - 1) % k < k := Nat.mod_lt _ hk
  omega

/-- A position below n lands in a chunk number below the chunk count. -/
theorem div_lt_ceil (i n k : ℕ) (hk : 0 < k) (h : i < n) :
    i / k < (n + k - 1) / k :=
  (Nat.div_lt_iff_lt_mul hk).mpr (lt_of_lt_of_le h (ceil_div_mul_ge n k hk))

/-- The batching step written as a map over chunk numbers. -/
theorem getBatches_eq {α : Type} (xs : List α) (k : ℕ) :
    getBatches xs k =
      (List.range ((xs.length + k - 1) / k)).map
        (fun i => (xs.drop (i * k)).take k) := by
  unfold getBatches pyRange
  rw [List.map_map]
  rfl

/-- The number of batches produced by the batching step. -/
theorem getBatches_length {α : Type} (xs : List α) (k : ℕ) :
    (getBatches xs k).length = (xs.length + k - 1) / k := by
  rw [getBatches_eq]
  simp

/-- Batch number j of the batching step is the j-th contiguous slice. -/
theorem getBatches_getD {α : Type} (xs : List α) (k j : ℕ)
    (h : j < (getBatches xs k).length) :
    (getBatches xs k).getD j [] = (xs.drop (j * k)).take k := by
  rw [getBatches_eq] at h ⊢
  rw [getD_map_of_lt _ _ _ j (by simpa using h)]
  simp

/-- The length of batch number j. -/
theorem getBatches_getD_length {α : Type} (xs : List α) (k j : ℕ)
    (h : j < (getBatches xs k).length) :
    ((getBatches xs k).getD j []).length = min k (xs.length - j * k) := by
  rw [getBatches_getD xs k j h]
  simp

/-- Every batch other than the final one has exactly k elements. -/
theorem getBatches_full_chunk {α : Type} (xs : List α) (k j : ℕ)
    (h : j + 1 < (getBatches xs k).length) :
    ((getBatches xs k).getD j []).length = k := by
  rw [getBatches_getD_length xs k j (by omega)]
  rw [getBatches_length] at h
  have h2 : (j + 2) * k ≤ (xs.length + k - 1) / k * k :=
    Nat.mul_le_mul_right k (by omega)
  have h3 : (xs.length + k - 1) / k * k ≤ xs.length + k - 1 :=
    Nat.div_mul_le_self _ _
  have h4 : (j + 2) * k = j * k + 2 * k := by ring
  exact min_eq_left (by omega)

/-- Concatenating the first m chunks of size k recovers the first m * k
elements. -/
theorem chunks_flatten_aux {α : Type} (k : ℕ) :
    ∀ (m : ℕ) (xs : List α),
      ((List.range m).map (fun i => (xs.drop (i * k)).take k)).flatten =
        xs.take (m * k) := by
  intro m
  induction m with
  | zero => intro xs; simp
  | succ m ih =>
    intro xs
    rw [List.range_succ_eq_map, List.map_cons, List.map_map, List.flatten_cons]
    have hcomp :
        ((fun i => (xs.drop (i * k)).take k) ∘ Nat.succ) =
          (fun i => ((xs.drop k).drop (i * k)).take k) := by
      funext i
      simp only [Function.comp_apply, List.drop_drop]
      congr 2
      simp [Nat.succ_mul, Nat.add_comm]
    rw [hcomp, ih (xs.drop k), Nat.succ_mul, Nat.add_comm (m * k) k, List.take_add]
    simp

/-- Concatenating all the batches recovers the example list: the batching
step is a partition in the original order. -/
theorem getBatches_flatten {α : Type} (xs : List α) (k : ℕ) (hk : 0 < k) :
    (getBatches xs k).flatten = xs := by
  rw [getBatches_eq, chunks_flatten_aux]
  exact List.take_of_length_le (ceil_div_mul_ge xs.length k hk)

/-- Position i of the concatenation of chunks, all of length k except
possibly the final one, is position i % k of chunk number i / k. -/
theorem flatten_getD_uniform {α : Type} (k : ℕ) (hk : 0 < k) (d : α) :
    ∀ (Ls : List (List α)),
      (∀ j, j + 1 < Ls.length → (Ls.getD j []).length = k) →
      (∀ j, j < Ls.length → (Ls.getD j []).length ≤ k) →
      ∀ i, i < Ls.flatten.length →
        Ls.flatten.getD i d = (Ls.getD (i / k) []).getD (i % k) d := by
  intro Ls
  induction Ls with
  | nil => intro _ _ i hi; simp at hi
  | cons c rest ih =>
    intro hfull hle i hi
    rw [List.flatten_cons] at hi ⊢
    have hc_le : c.length ≤ k := by simpa using hle 0 (by simp)
    by_cases hic : i < c.length
    · rw [getD_append_lt _ _ _ _ hic]
      have hik : i < k := lt_of_lt_of_le hic hc_le
      rw [Nat.div_eq_of_lt hik, Nat.mod_eq_of_lt hik]
      simp
    · push_neg at hic
      cases rest with
      | nil =>
        simp at hi
        omega
      | cons c2 rest2 =>
        have hc_full : c.length = k := by simpa using hfull 0 (by simp)
        rw [getD_append_ge _ _ _ _ hic, hc_full]
        have hik : k ≤ i := hc_full ▸ hic
        have hi2 : i - k < (c2 :: rest2).flatten.length := by
          rw [List.length_append] at hi
          omega
        rw [ih (fun j hj => by
              simpa using hfull (j + 1) (by simp at hj ⊢; omega))
            (fun j hj => by
              simpa using hle (j + 1) (by simp at hj ⊢; omega))
            (i - k) hi2]
        have hq : i / k = (i - k) / k + 1 := by
          have h5 := Nat.add_div_right (i - k) hk
          rw [Nat.sub_add_cancel hik] at h5
          exact h5
        have hm : i % k = (i - k) % k := by
          have h5 := Nat.add_mod_right (i - k) k
          rw [Nat.sub_add_cancel hik] at h5
          exact h5
        rw [hq, hm]
        simp

/-- Invariant of the argmax scanning loop over the remaining list: either
nothing in the rest strictly exceeds the running best, and its stored
index is returned, or the result points at the first element of the rest
that strictly exceeds the running best, which also bounds every element
of the rest, strictly so for the elements before it. -/
theorem argmaxAux_spec {α : Type} [LinearOrder α] (xs : List α) :
    ∀ (best : α) (bi cur : ℕ),
      (argmaxAux best bi cur xs = bi ∧ ∀ x ∈ xs, x ≤ best) ∨
      (∃ j, ∃ hj : j < xs.length,
        argmaxAux best bi cur xs = cur + j ∧
        best < xs[j] ∧
        (∀ x ∈ xs, x ≤ xs[j]) ∧
        (∀ j2, ∀ hj2 : j2 < xs.length, j2 < j → xs[j2] < xs[j])) := by
  induction xs with
  | nil => intro best bi cur; left; exact ⟨rfl, by simp⟩
  | cons x t ih =>
    intro best bi cur
    simp only [argmaxAux]
    by_cases hbx : best < x
    · rw [if_pos hbx]
      rcases ih x cur (cur + 1) with ⟨heq, hall⟩ | ⟨j, hj, heq, hlt, hall, hfirst⟩
      · right
        refine ⟨0, by simp, by simp [heq], by simpa using hbx, ?_, ?_⟩
        · intro y hy
          rcases List.mem_cons.mp hy with rfl | hy
          · simp
          · simpa using hall y hy
        · intro j2 hj2 hj2lt
          omega
      · right
        refine ⟨j + 1, by simp; omega, by rw [heq]; omega, ?_, ?_, ?_⟩
        · simpa using lt_trans hbx hlt
        · intro y hy
          rcases List.mem_cons.mp hy with rfl | hy
          · simpa using le_of_lt hlt
          · simpa using hall y hy
        · intro j2 hj2 hj2lt
          cases j2 with
          | zero => simpa using hlt
          | succ m =>
            have hm : m < t.length := by simp at hj2; omega
            simpa using hfirst m hm (by omega)
    · rw [if_neg hbx]
      have hxb : x ≤ best := not_lt.mp hbx
      rcases ih best bi (cur + 1) with ⟨heq, hall⟩ | ⟨j, hj, heq, hlt, hall, hfirst⟩
      · left
        refine ⟨heq, ?_⟩
        intro y hy
        rcases List.mem_cons.mp hy with rfl | hy
        · exact hxb
        · exact hall y hy
      · right
        refine ⟨j + 1, by simp; omega, by rw [heq]; omega, ?_, ?_, ?_⟩
        · simpa using hlt
        · intro y hy
          rcases List.mem_cons.mp hy with rfl | hy
          · simpa using le_of_lt (lt_of_le_of_lt hxb hlt)
          · simpa using hall y hy
        · intro j2 hj2 hj2lt
          cases j2 with
          | zero => simpa using lt_of_le_of_lt hxb hlt
          | succ m =>
            have hm : m < t.length := by simp at hj2; omega
            simpa using hfirst m hm (by omega)

/-- The first-maximum specification of `np.argmax` on a nonempty list:
the selected index is in range, the value there is an upper bound of the
whole list, and every earlier entry is strictly below it, so the lowest
index attaining the maximum is the one selected. -/
theorem npArgmax_spec {α : Type} [LinearOrder α] (xs : List α) (hne : xs ≠ []) :
    ∃ (r : ℕ) (v : α), npArgmax xs = r ∧ ∃ hr : r < xs.length, xs[r] = v ∧
      (∀ j, ∀ hj : j < xs.length, xs[j] ≤ v) ∧
      (∀ j, ∀ hj : j < xs.length, j < r → xs[j] < v) := by
  cases xs with
  | nil => simp at hne
  | cons y t =>
    show ∃ r v, argmaxAux y 0 1 t = r ∧ _
    rcases argmaxAux_spec t y 0 1 with ⟨heq, hall⟩ | ⟨j, hj, heq, hlt, hall, hfirst⟩
    · refine ⟨0, y, heq, by simp, by simp, ?_, ?_⟩
      · intro j2 hj2
        cases j2 with
        | zero => simp
        | succ m =>
          have hm : m < t.length := by simp at hj2; omega
          simpa using hall t[m] (List.getElem_mem hm)
      · intro j2 hj2 h0
        omega
    · refine ⟨1 + j, t[j], heq, by simp; omega, ?_, ?_, ?_⟩
      · have h1 : 1 + j = j + 1 := by omega
        simp [h1]
      · intro j2 hj2
        cases j2 with
        | zero => simpa using le_of_lt hlt
        | succ m =>
          have hm : m < t.length := by simp at hj2; omega
          simpa using hall t[m] (List.getElem_mem hm)
      · intro j2 hj2 hj2lt
        cases j2 with
        | zero => simpa using hlt
        | succ m =>
          have hm : m < t.length := by simp at hj2; omega
          simpa using hfirst m hm (by omega)

/-- Every entry of a list of naturals is bounded by its running maximum. -/
theorem le_foldr_max (l : List ℕ) : ∀ x ∈ l, x ≤ l.foldr max 0 := by
  induction l with
  | nil => simp
  | cons a t ih =>
    intro x hx
    rcases List.mem_cons.mp hx with rfl | hx
    · exact le_max_left _ _
    · exact le_trans (ih x hx) (le_max_right _ _)

/-- The running maximum of a nonempty list of naturals is attained. -/
theorem foldr_max_mem (l : List ℕ) (hne : l ≠ []) : l.foldr max 0 ∈ l := by
  induction l with
  | nil => simp at hne
  | cons a t ih =>
    cases t with
    | nil => simp
    | cons b t2 =>
      rcases le_total ((b :: t2).foldr max 0) a with h | h
      · have he : (a :: b :: t2).foldr max 0 = a := by
          simp only [List.foldr_cons] at h ⊢
          exact max_eq_left h
        rw [he]
        exact List.mem_cons_self _ _
      · have he : (a :: b :: t2).foldr max 0 = (b :: t2).foldr max 0 := by
          simp only [List.foldr_cons] at h ⊢
          exact max_eq_right h
        rw [he]
        exact List.mem_cons_of_mem _ (ih (by simp))

/-- Every raw length is bounded by the batch maximum length. -/
theorem batchMaxLen_bound (seqs : List (List ℤ)) :
    ∀ s ∈ seqs, s.length ≤ batchMaxLen seqs := by
  intro s hs
  exact le_foldr_max _ _ (List.mem_map_of_mem List.length hs)

/-- On a nonempty batch the batch maximum length is one of the raw
lengths. -/
theorem batchMaxLen_mem (seqs : List (List ℤ)) (hne : seqs ≠ []) :
    batchMaxLen seqs ∈ seqs.map List.length :=
  foldr_max_mem _ (by simpa using hne)

/-- Padding keeps one row per raw row. -/
theorem padBatch_length (pad_val : ℤ) (seqs : List (List ℤ)) :
    (padBatch pad_val seqs).length = seqs.length := by
  simp [padBatch]

/-- Row j of the padded batch is row j of the raw batch extended by pad
ids up to the batch maximum length. -/
theorem padBatch_getD (pad_val : ℤ) (seqs : List (List ℤ)) (j : ℕ)
    (hj : j < seqs.length) :
    (padBatch pad_val seqs).getD j [] =
      seqs[j] ++ List.replicate (batchMaxLen seqs - seqs[j].length) pad_val := by
  unfold padBatch
  rw [getD_map_of_lt _ _ _ j hj]
  simp

/-- Every padded row has exactly the batch maximum length. -/
theorem padBatch_elem_length (pad_val : ℤ) (seqs : List (List ℤ)) :
    ∀ t ∈ padBatch pad_val seqs, t.length = batchMaxLen seqs := by
  intro t ht
  obtain ⟨s, hs, rfl⟩ := List.mem_map.mp ht
  have hb := batchMaxLen_bound seqs s hs
  simp only [List.length_append, List.length_replicate]
  omega

/-- The padding step satisfies the full padding contract on a nonempty
batch. -/
theorem padBatch_correct (pad_val : ℤ) (seqs : List (List ℤ)) (hne : seqs ≠ []) :
    PaddedCorrectly pad_val seqs (padBatch pad_val seqs) := by
  refine ⟨padBatch_length pad_val seqs, padBatch_elem_length pad_val seqs,
    batchMaxLen_mem seqs hne, batchMaxLen_bound seqs, ?_⟩
  intro j hj i
  have hpad := padBatch_getD pad_val seqs j hj
  constructor
  · intro hi
    rw [hpad, getD_append_lt _ _ _ _ hi]
  · intro hi1 hi2
    rw [hpad, getD_append_ge _ _ _ _ hi1]
    rw [List.getD_eq_getElem _ _ (by simp only [List.length_replicate]; omega)]
    exact List.getElem_replicate _ _

/-- A successful label decoding yields one label per index. -/
theorem mapLabels_ok_length (lm : List (ℕ × String)) :
    ∀ (idx : List ℕ) (ls : List String),
      mapLabels lm idx = Except.ok ls → ls.length = idx.length := by
  intro idx
  induction idx with
  | nil =>
    intro ls h
    simp only [mapLabels] at h
    simp at h
    simp [← h]
  | cons i rest ih =>
    intro ls h
    simp only [mapLabels] at h
    cases hg : lmGet lm i with
    | error e => rw [hg] at h; simp at h
    | ok l =>
      rw [hg] at h
      cases hr : mapLabels lm rest with
      | error e => rw [hr] at h; simp at h
      | ok ls2 =>
        rw [hr] at h
        simp at h
        rw [← h]
        simp [ih ls2 hr]

/-- A successful label decoding looks index r up to label r. -/
theorem mapLabels_ok_getD (lm : List (ℕ × String)) :
    ∀ (idx : List ℕ) (ls : List String),
      mapLabels lm idx = Except.ok ls →
      ∀ r, r < idx.length →
        lmGet lm (idx.getD r 0) = Except.ok (ls.getD r "") := by
  intro idx
  induction idx with
  | nil => intro ls h r hr; simp at hr
  | cons i rest ih =>
    intro ls h r hr
    simp only [mapLabels] at h
    cases hg : lmGet lm i with
    | error e => rw [hg] at h; simp at h
    | ok l =>
      rw [hg] at h
      cases hrest : mapLabels lm rest with
      | error e => rw [hrest] at h; simp at h
      | ok ls2 =>
        rw [hrest] at h
        simp at h
        rw [← h]
        cases r with
        | zero => simpa using hg
        | succ m =>
          simp only [List.getD_cons_succ]
          exact ih ls2 hrest m (by simp at hr; omega)

/-- Unrolling a successful run of the prediction loop: there is one label
block per batch, each the successful decoding of its batch, and the final
result is the accumulator followed by the concatenated blocks. -/
theorem processBatches_ok (p : Predictor) (pv : ℤ) (lm : List (ℕ × String)) :
    ∀ (batches : List (List (List ℤ × List ℤ))) (acc results : List String),
      processBatches p pv lm batches acc = Except.ok results →
      ∃ Ls : List (List String),
        Ls.length = batches.length ∧
        (∀ j, j < batches.length →
          decodeBatch p pv lm (batches.getD j []) = Except.ok (Ls.getD j [])) ∧
        results = acc ++ Ls.flatten := by
  intro batches
  induction batches with
  | nil =>
    intro acc results h
    simp only [processBatches] at h
    simp at h
    exact ⟨[], by simp, by simp, by simp [← h]⟩
  | cons b rest ih =>
    intro acc results h
    simp only [processBatches] at h
    cases hd : decodeBatch p pv lm b with
    | error e => rw [hd] at h; simp at h
    | ok labels =>
      rw [hd] at h
      obtain ⟨Ls, hlen, hdec, hres⟩ := ih (acc ++ labels) results h
      refine ⟨labels :: Ls, by simp [hlen], ?_, ?_⟩
      · intro j hj
        cases j with
        | zero => simpa using hd
        | succ m =>
          simp only [List.getD_cons_succ]
          exact hdec m (by simp at hj; omega)
      · rw [hres, List.flatten_cons, List.append_assoc]

/-- When the engine keeps the batch dimension, a successful decode yields
one label per example of the batch. -/
theorem decodeBatch_ok_length (p : Predictor) (pv : ℤ) (lm : List (ℕ × String))
    (batch : List (List ℤ × List ℤ)) (L : List String)
    (Hrows : ∀ a b, (p.engine a b).length = a.length)
    (h : decodeBatch p pv lm batch = Except.ok L) : L.length = batch.length := by
  simp only [decodeBatch] at h
  rw [mapLabels_ok_length lm _ _ h]
  simp [Hrows, batchify_fn, padBatch_length]

/-- Label r of a successful batch decode is the label dictionary entry of
the argmax of the softened logits row r of the engine output. -/
theorem decodeBatch_ok_getD (p : Predictor) (pv : ℤ) (lm : List (ℕ × String))
    (batch : List (List ℤ × List ℤ)) (L : List String)
    (Hrows : ∀ a b, (p.engine a b).length = a.length)
    (h : decodeBatch p pv lm batch = Except.ok L)
    (r : ℕ) (hr : r < batch.length) :
    lmGet lm (npArgmax (softmaxRow
      ((p.engine (batchify_fn pv batch).1 (batchify_fn pv batch).2).getD r []))) =
      Except.ok (L.getD r "") := by
  simp only [decodeBatch] at h
  have hrows_len :
      r < (p.engine (batchify_fn pv batch).1 (batchify_fn pv batch).2).length := by
    rw [Hrows]
    simp [batchify_fn, padBatch_length, hr]
  have h2 := mapLabels_ok_getD lm _ _ h r (by simpa using hrows_len)
  rw [List.getD_eq_getElem _ _ (by simpa using hrows_len), List.getElem_map,
    List.getElem_map, ← List.getD_eq_getElem _ [] hrows_len] at h2
  exact h2

/-- Core specification of a successful predict run: as many results as
inputs, and result i is the label assigned to input i through its batch. -/
theorem predict_ok_spec (p : Predictor) (data : List String) (tok : Tokenizer)
    (lm : List (ℕ × String)) (k : ℕ) (hk : 0 < k)
    (Hrows : ∀ a b, (p.engine a b).length = a.length)
    (results : List String)
    (hok : p.predict data tok lm k = Except.ok results) :
    results.length = data.length ∧
    ∀ i, i < data.length →
      Except.ok (results.getD i "") = expectedLabelAt p tok lm data k i := by
  simp only [Predictor.predict] at hok
  obtain ⟨Ls, hLslen, hdec, hres⟩ := processBatches_ok p tok.pad_token_id lm _ _ _ hok
  rw [List.nil_append] at hres
  subst hres
  set ex := data.map (fun text =>
    encodeForPredict tok p.max_seq_length (lmValues lm) text) with hex
  have hexlen : ex.length = data.length := by simp [hex]
  have hlen_j : ∀ j, j < (getBatches ex k).length →
      (Ls.getD j []).length = ((getBatches ex k).getD j []).length := by
    intro j hj
    exact decodeBatch_ok_length p tok.pad_token_id lm _ _ Hrows (hdec j hj)
  have hmaps : Ls.map List.length = (getBatches ex k).map List.length := by
    apply List.ext_getElem
    · simp [hLslen]
    · intro n h1 h2
      simp only [List.getElem_map]
      have hn : n < (getBatches ex k).length := by simpa using h2
      have hn2 : n < Ls.length := by simpa using h1
      have h3 := hlen_j n hn
      rw [List.getD_eq_getElem _ _ hn2, List.getD_eq_getElem _ _ hn] at h3
      exact h3
  have hflatlen : Ls.flatten.length = ex.length := by
    rw [List.length_flatten, hmaps, ← List.length_flatten, getBatches_flatten ex k hk]
  constructor
  · rw [hflatlen, hexlen]
  · intro i hi
    have hie : i < ex.length := by omega
    have hj : i / k < (getBatches ex k).length := by
      rw [getBatches_length]
      exact div_lt_ceil i ex.length k hk hie
    have hfull : ∀ j, j + 1 < Ls.length → (Ls.getD j []).length = k := by
      intro j hjj
      rw [hLslen] at hjj
      rw [hlen_j j (by omega)]
      exact getBatches_full_chunk ex k j hjj
    have hle2 : ∀ j, j < Ls.length → (Ls.getD j []).length ≤ k := by
      intro j hjj
      rw [hLslen] at hjj
      rw [hlen_j j hjj, getBatches_getD_length ex k j hjj]
      exact min_le_left _ _
    have hiflat : i < Ls.flatten.length := by rw [hflatlen]; exact hie
    have hidx := flatten_getD_uniform k hk "" Ls hfull hle2 i hiflat
    have hrmod : i % k < ((getBatches ex k).getD (i / k) []).length := by
      rw [getBatches_getD_length ex k (i / k) hj]
      have h1 : i / k * k + i % k = i := Nat.div_add_mod' i k
      have h2 : i % k < k := Nat.mod_lt _ hk
      exact lt_min h2 (by omega)
    have hdecj := decodeBatch_ok_getD p tok.pad_token_id lm
      ((getBatches ex k).getD (i / k) []) (Ls.getD (i / k) []) Hrows
      (hdec (i / k) hj) (i % k) hrmod
    rw [hidx, ← hdecj, getBatches_getD ex k (i / k) hj]
    simp only [expectedLabelAt]

/-- C2: for every list of n encoded examples and every chunk size k ≥ 1,
the batching step yields ⌈n/k⌉ = (n + k - 1) / k contiguous chunks whose
concatenation is the original list in original order, every chunk except
possibly the last has exactly k elements, and no chunk exceeds k, so only
the last chunk may be shorter. -/
theorem batching_partitions_in_order {α : Type} (xs : List α) (k : ℕ) (hk : 1 ≤ k) :
    (getBatches xs k).length = (xs.length + k - 1) / k ∧
    (getBatches xs k).flatten = xs ∧
    (∀ j, j + 1 < (getBatches xs k).length →
      ((getBatches xs k).getD j []).length = k) ∧
    (∀ b ∈ getBatches xs k, b.length ≤ k) := by
  refine ⟨getBatches_length xs k, getBatches_flatten xs k hk,
    fun j hj => getBatches_full_chunk xs k j hj, ?_⟩
  intro b hb
  rw [getBatches_eq] at hb
  obtain ⟨i, _, rfl⟩ := List.mem_map.mp hb
  exact List.length_take_le _ _

/-- Witness for C2 at the concrete list [10, 11, 12, 13, 14] with chunk
size 2. -/
theorem batching_partitions_in_order_witness :
    (getBatches ([10, 11, 12, 13, 14] : List ℕ) 2).length =
      (([10, 11, 12, 13, 14] : List ℕ).length + 2 - 1) / 2 ∧
    (getBatches ([10, 11, 12, 13, 14] : List ℕ) 2).flatten = [10, 11, 12, 13, 14] ∧
    (∀ j, j + 1 < (getBatches ([10, 11, 12, 13, 14] : List ℕ) 2).length →
      ((getBatches ([10, 11, 12, 13, 14] : List ℕ) 2).getD j []).length = 2) ∧
    (∀ b ∈ getBatches ([10, 11, 12, 13, 14] : List ℕ) 2, b.length ≤ 2) :=
  batching_partitions_in_order [10, 11, 12, 13, 14] 2 (by omega)

/-- C3: padding a nonempty batch equalizes the lengths of the input_ids
rows, and likewise the segment_ids rows, to the longest raw row of the
batch for that field; original positions are unchanged and every filled
position holds the designated pad id. -/
theorem padding_fills_to_batch_max (pad_val : ℤ) (samples : List (List ℤ × List ℤ))
    (hne : samples ≠ []) :
    PaddedCorrectly pad_val (samples.map Prod.fst) (batchify_fn pad_val samples).1 ∧
    PaddedCorrectly pad_val (samples.map Prod.snd) (batchify_fn pad_val samples).2 :=
  ⟨padBatch_correct pad_val (samples.map Prod.fst) (by simpa using hne),
    padBatch_correct pad_val (samples.map Prod.snd) (by simpa using hne)⟩

/-- Witness for C3 at a concrete two-example batch with pad id 9. -/
theorem padding_fills_to_batch_max_witness :
    PaddedCorrectly 9 (([([1], [5]), ([2, 3], [6, 7])] :
        List (List ℤ × List ℤ)).map Prod.fst)
      (batchify_fn 9 [([1], [5]), ([2, 3], [6, 7])]).1 ∧
    PaddedCorrectly 9 (([([1], [5]), ([2, 3], [6, 7])] :
        List (List ℤ × List ℤ)).map Prod.snd)
      (batchify_fn 9 [([1], [5]), ([2, 3], [6, 7])]).2 :=
  padding_fills_to_batch_max 9 [([1], [5]), ([2, 3], [6, 7])] (by simp)

/-- C4: the labeled-encoding branch of convert_example does not perform
the label lookup: because the local variable label is read before any
assignment, every call with is_test set to false raises UnboundLocalError
— also at a concrete input whose label is present in the label list — and
that failure is not the KeyError lookup failure the claim describes. -/
theorem labeled_branch_raises_unbound_local :
    (∀ (ex : String) (tok : Tokenizer) (ll : List String) (msl : ℕ),
      convert_example ex tok ll msl false = Except.error PyErr.unboundLocal) ∧
    convert_example "this movie is great" demoTok ["negative", "positive"] 128 false =
      Except.error PyErr.unboundLocal ∧
    PyErr.unboundLocal ≠ PyErr.keyError :=
  ⟨fun _ _ _ _ => rfl, rfl, by decide⟩

/-- C5: on every nonempty probability row produced by the decoding step,
np.argmax selects an in-range index at which the row attains its maximum
value, and every index before the selected one holds a strictly smaller
value, so ties resolve to the lowest index. -/
theorem argmax_selects_lowest_maximum (row : List ℝ) (hne : row ≠ []) :
    ∃ (r : ℕ) (v : ℝ),
      npArgmax (softmaxRow row) = r ∧
      ∃ hr : r < (softmaxRow row).length,
        (softmaxRow row)[r] = v ∧
        (∀ j, ∀ hj : j < (softmaxRow row).length, (softmaxRow row)[j] ≤ v) ∧
        (∀ j, ∀ hj : j < (softmaxRow row).length, j < r → (softmaxRow row)[j] < v) :=
  npArgmax_spec (softmaxRow row) (by simpa [softmaxRow] using hne)

/-- Witness for C5 at the concrete one-entry row [1]. -/
theorem argmax_selects_lowest_maximum_witness :
    ∃ (r : ℕ) (v : ℝ),
      npArgmax (softmaxRow [(1 : ℝ)]) = r ∧
      ∃ hr : r < (softmaxRow [(1 : ℝ)]).length,
        (softmaxRow [(1 : ℝ)])[r] = v ∧
        (∀ j, ∀ hj : j < (softmaxRow [(1 : ℝ)]).length,
          (softmaxRow [(1 : ℝ)])[j] ≤ v) ∧
        (∀ j, ∀ hj : j < (softmaxRow [(1 : ℝ)]).length, j < r →
          (softmaxRow [(1 : ℝ)])[j] < v) :=
  argmax_selects_lowest_maximum [(1 : ℝ)] (by simp)

/-- C6: softmax normalization of every nonempty row of raw logits yields
only non-negative entries whose sum is exactly 1: the real-number
idealization of the floating-point statement. -/
theorem softmax_row_is_probability (row : List ℝ) (hne : row ≠ []) :
    (∀ y ∈ softmaxRow row, 0 ≤ y) ∧ (softmaxRow row).sum = 1 := by
  have hS : 0 < (row.map Real.exp).sum := by
    apply List.sum_pos
    · intro x hx
      obtain ⟨a, _, rfl⟩ := List.mem_map.mp hx
      exact Real.exp_pos a
    · simpa using hne
  constructor
  · intro y hy
    obtain ⟨a, _, rfl⟩ := List.mem_map.mp hy
    exact div_nonneg (Real.exp_pos a).le hS.le
  · unfold softmaxRow
    have hfun : (fun x => Real.exp x / (row.map Real.exp).sum) =
        (fun x => Real.exp x * ((row.map Real.exp).sum)⁻¹) := by
      funext x
      rw [div_eq_mul_inv]
    rw [hfun, List.sum_map_mul_right]
    exact mul_inv_cancel₀ (ne_of_gt hS)

/-- Witness for C6 at the concrete one-entry row [0]. -/
theorem softmax_row_is_probability_witness :
    (∀ y ∈ softmaxRow [(0 : ℝ)], 0 ≤ y) ∧ (softmaxRow [(0 : ℝ)]).sum = 1 :=
  softmax_row_is_probability [(0 : ℝ)] (by simp)

/-- C7: the prediction path always calls convert_example with is_test
true; that branch always succeeds with the (input_ids, segment_ids) pair
of the tokenizer encoding, so the labeled-encoding branch is unreachable
from predict, and predict consumes only such pairs. -/
theorem predict_only_uses_test_branch :
    (∀ (ex : String) (tok : Tokenizer) (ll : List String) (msl : ℕ),
      convert_example ex tok ll msl true =
        Except.ok (ConvOut.pair (tok.encode ex msl).1 (tok.encode ex msl).2)) ∧
    (∀ (tok : Tokenizer) (msl : ℕ) (ll : List String) (ex : String),
      encodeForPredict tok msl ll ex = ((tok.encode ex msl).1, (tok.encode ex msl).2)) ∧
    (∀ (p : Predictor) (data : List String) (tok : Tokenizer)
        (lm : List (ℕ × String)) (k : ℕ),
      p.predict data tok lm k =
        processBatches p tok.pad_token_id lm
          (getBatches (data.map (fun text =>
            encodeForPredict tok p.max_seq_length (lmValues lm) text)) k) []) :=
  ⟨fun _ _ _ _ => rfl, fun _ _ _ _ => rfl, fun _ _ _ _ _ => rfl⟩

/-- C1: whenever predict succeeds on a non-empty input list and the
engine keeps the batch dimension (one logits row per example row), the
result list has exactly the length of the input list, and entry i is the
label the pipeline assigns to input i, obtained from row i % batch_size
of batch i / batch_size: batches are formed in original order, labels are
appended in batch order, and nothing is shuffled, dropped or
deduplicated. -/
theorem predict_preserves_order_and_length (p : Predictor) (data : List String)
    (tok : Tokenizer) (lm : List (ℕ × String)) (k : ℕ)
    (hk : 0 < k) (_hne : data ≠ [])
    (Hrows : ∀ a b, (p.engine a b).length = a.length)
    (results : List String)
    (hok : p.predict data tok lm k = Except.ok results) :
    results.length = data.length ∧
    ∀ i, i < data.length →
      Except.ok (results.getD i "") = expectedLabelAt p tok lm data k i :=
  predict_ok_spec p data tok lm k hk Hrows results hok

/-- Witness for C1: the demo predictor on three texts with batch size 2
returns three labels, aligned with the inputs. -/
theorem predict_preserves_order_and_length_witness :
    demoPredictor.predict ["a", "b", "c"] demoTok demoLM 2 =
      Except.ok ["positive", "positive", "positive"] ∧
    (["positive", "positive", "positive"] : List String).length =
      (["a", "b", "c"] : List String).length ∧
    ∀ i, i < (["a", "b", "c"] : List String).length →
      Except.ok ((["positive", "positive", "positive"] : List String).getD i "") =
        expectedLabelAt demoPredictor demoTok demoLM ["a", "b", "c"] 2 i :=
  ⟨rfl,
    predict_preserves_order_and_length demoPredictor ["a", "b", "c"] demoTok demoLM 2
      (by omega) (by simp) (fun a b => by simp [demoPredictor]) _ rfl⟩

/-- C8: the device flag accepts exactly the values cpu, gpu and xpu and
defaults to gpu when absent; every other value is rejected at parse time
with the argparse exit, and the script main then fails before any
predictor is constructed: its outcome does not depend on the predictor
factory at all. -/
theorem device_flag_enumeration :
    parseDevice none = Except.ok "gpu" ∧
    (∀ s, parseDevice (some s) = Except.ok s ↔
      (s = "cpu" ∨ s = "gpu" ∨ s = "xpu")) ∧
    (∀ s, ¬(s = "cpu" ∨ s = "gpu" ∨ s = "xpu") →
      parseDevice (some s) = Except.error PyErr.systemExit) ∧
    (∀ (mk1 mk2 : String → Predictor) (tok : Tokenizer) (data : List String)
        (lm : List (ℕ × String)) (bs : ℕ) (s : String),
      parseDevice (some s) = Except.error PyErr.systemExit →
      scriptMain mk1 tok data lm bs (some s) = Except.error PyErr.systemExit ∧
      scriptMain mk1 tok data lm bs (some s) =
        scriptMain mk2 tok data lm bs (some s)) := by
  refine ⟨rfl, ?_, ?_, ?_⟩
  · intro s
    constructor
    · intro h
      by_cases hmem : s ∈ deviceChoices
      · simpa [deviceChoices] using hmem
      · simp [parseDevice, hmem] at h
    · intro h
      have hmem : s ∈ deviceChoices := by
        simp only [deviceChoices, List.mem_cons]
        tauto
      simp [parseDevice, hmem]
  · intro s h
    have hmem : s ∉ deviceChoices := by
      simp only [deviceChoices, List.mem_cons]
      intro hc
      apply h
      tauto
    simp [parseDevice, hmem]
  · intro mk1 mk2 tok data lm bs s hparse
    constructor
    · simp [scriptMain, hparse]
    · simp [scriptMain, hparse]

/-- Witness for C8 at the rejected device string tpu: the script main
exits with the parse failure whatever predictor factory is supplied. -/
theorem device_flag_enumeration_witness :
    scriptMain (fun _ => demoPredictor) demoTok ["a"] demoLM 2 (some "tpu") =
      Except.error PyErr.systemExit ∧
    scriptMain (fun _ => demoPredictor) demoTok ["a"] demoLM 2 (some "tpu") =
      scriptMain (fun _ => ⟨1, fun _ _ => []⟩) demoTok ["a"] demoLM 2 (some "tpu") :=
  device_flag_enumeration.2.2.2 (fun _ => demoPredictor) (fun _ => ⟨1, fun _ _ => []⟩)
    demoTok ["a"] demoLM 2 "tpu" rfl

/-- C9: after a successful predict run the script prints exactly one
console line per input example, in input order, and line i is the string
Data: followed by input i, the tab separator, and Label: followed by
result entry i. -/
theorem console_prints_one_line_per_example (p : Predictor) (data : List String)
    (tok : Tokenizer) (lm : List (ℕ × String)) (k : ℕ)
    (hk : 0 < k) (Hrows : ∀ a b, (p.engine a b).length = a.length)
    (results : List String)
    (hok : p.predict data tok lm k = Except.ok results) :
    (consoleLines data results).length = data.length ∧
    results.length = data.length ∧
    ∀ i, i < data.length →
      (consoleLines data results).getD i "" =
        "Data: " ++ data.getD i "" ++ " \t Label: " ++ results.getD i "" := by
  refine ⟨by simp [consoleLines],
    (predict_ok_spec p data tok lm k hk Hrows results hok).1, ?_⟩
  intro i hi
  unfold consoleLines
  rw [getD_map_of_lt _ _ _ i (by simpa using hi)]
  simp

/-- Witness for C9 on the demo predictor run. -/
theorem console_prints_one_line_per_example_witness :
    (consoleLines ["a", "b", "c"] ["positive", "positive", "positive"]).length =
      (["a", "b", "c"] : List String).length ∧
    (["positive", "positive", "positive"] : List String).length =
      (["a", "b", "c"] : List String).length ∧
    ∀ i, i < (["a", "b", "c"] : List String).length →
      (consoleLines ["a", "b", "c"] ["positive", "positive", "positive"]).getD i "" =
        "Data: " ++ (["a", "b", "c"] : List String).getD i "" ++ " \t Label: " ++
          (["positive", "positive", "positive"] : List String).getD i "" :=
  console_prints_one_line_per_example demoPredictor ["a", "b", "c"] demoTok demoLM 2
    (by omega) (fun a b => by simp [demoPredictor]) _ rfl

/-- C10: on the empty input list predict returns the empty result list,
the batching step forms no batch at all, and the engine is never invoked:
the list of engine calls is empty. -/
theorem predict_empty_no_engine_call (p : Predictor) (tok : Tokenizer)
    (lm : List (ℕ × String)) (k : ℕ) (hk : 0 < k) :
    p.predict [] tok lm k = Except.ok [] ∧
    getBatches (([] : List String).map (fun text =>
      encodeForPredict tok p.max_seq_length (lmValues lm) text)) k = [] ∧
    p.engineCalls [] tok lm k = [] := by
  have hb : ∀ (β : Type), getBatches ([] : List β) k = [] := by
    intro β
    rw [getBatches_eq]
    have h0 : (k - 1) / k = 0 := Nat.div_eq_of_lt (by omega)
    simp [h0]
  refine ⟨?_, ?_, ?_⟩
  · simp only [Predictor.predict, List.map_nil]
    rw [hb]
    rfl
  · simp only [List.map_nil]
    exact hb _
  · simp only [Predictor.engineCalls, List.map_nil]
    rw [hb]
    rfl

/-- Witness for C10 on the demo predictor with batch size 2. -/
theorem predict_empty_no_engine_call_witness :
    demoPredictor.predict [] demoTok demoLM 2 = Except.ok [] ∧
    getBatches (([] : List String).map (fun text =>
      encodeForPredict demoTok demoPredictor.max_seq_length (lmValues demoLM) text))
      2 = [] ∧
    demoPredictor.engineCalls [] demoTok demoLM 2 = [] :=
  predict_empty_no_engine_call demoPredictor demoTok demoLM 2 (by omega)
